import Mathlib

/-!
Shallow embedding of the simplex-method solver (simplex.rs, task.rs,
tax_numbers.rs, errors.rs) over exact rational arithmetic, together with
proofs about its pivot selection, canonicalization, Big-M numbers and
tableau assembly.

Modelling conventions:
* The generic field parameter `F` of the Rust code is instantiated at `ℚ`
  (the program runs it at `Rational64` and `Tax<Rational64>`).
* `ndarray::Array2` is rectangular, so a tableau of the solver is a total
  function `Fin (m + 1) → Fin (n + 1) → α` (m restriction rows plus the
  objective row; n variable columns plus the right-hand-side column).
* Fallible operations return `Except SimplexMethodError`; a Rust panic
  (`unwrap`, indexing out of bounds) is modelled by `Option.none` where it
  matters.
* Rust `Iterator::min_by_key` returns the first of several equally minimal
  elements, `Iterator::max_by_key` the last of several equally maximal
  elements; `minByKeyFirst` and `maxByKeyLast` reproduce exactly those
  documented semantics.
-/

/-- Mirrors `enum Aim { Minimize, Maximize }` from simplex.rs. -/
inductive Aim : Type
  | Minimize : Aim
  | Maximize : Aim
deriving DecidableEq

/-- Mirrors `enum SimplexMethodError { NoLimit, NoSolutions }` from errors.rs. -/
inductive SimplexMethodError : Type
  | NoLimit : SimplexMethodError
  | NoSolutions : SimplexMethodError
deriving DecidableEq

instance {ε α : Type} [DecidableEq ε] [DecidableEq α] : DecidableEq (Except ε α) := fun x y =>
  match x, y with
  | Except.ok a, Except.ok b =>
    if h : a = b then isTrue (by rw [h]) else isFalse (by intro hc; injection hc; contradiction)
  | Except.ok _, Except.error _ => isFalse (by intro hc; injection hc)
  | Except.error _, Except.ok _ => isFalse (by intro hc; injection hc)
  | Except.error e, Except.error f =>
    if h : e = f then isTrue (by rw [h]) else isFalse (by intro hc; injection hc; contradiction)

/-- Propositional lifting over `Except`: holds of every `ok` payload. -/
def ExceptAll {ε β : Type} (P : β → Prop) : Except ε β → Prop
  | Except.ok x => P x
  | Except.error _ => True

/-- Embeds Rust `Iterator::min_by_key` (documented to return the FIRST of
several equally minimal elements). -/
def minByKeyFirst {β κ : Type} [LinearOrder κ] (key : β → κ) : List β → Option β
  | [] => none
  | x :: xs =>
    match minByKeyFirst key xs with
    | none => some x
    | some m => if key m < key x then some m else some x

/-- Embeds Rust `Iterator::max_by_key` (documented to return the LAST of
several equally maximal elements). -/
def maxByKeyLast {β κ : Type} [LinearOrder κ] (key : β → κ) : List β → Option β
  | [] => none
  | x :: xs =>
    match maxByKeyLast key xs with
    | none => some x
    | some m => if key m < key x then some x else some m

/-- Mirrors `ndarray::Array1::swap` (no-op stands for the out-of-bounds
panic, which never fires on the in-range uses below). -/
def listSwap {α : Type} (l : List α) (i j : ℕ) : List α :=
  match l.get? i, l.get? j with
  | some x, some y => (l.set i y).set j x
  | _, _ => l

/-- Reads a rectangular row-major list-of-lists as a total matrix, the view
an `ndarray::Array2` of shape (m+1)×(n+1) provides. -/
def ofLists {α : Type} [Zero α] (m n : ℕ) (rows : List (List α)) :
    Fin (m + 1) → Fin (n + 1) → α :=
  fun i j => (rows.getD i.val []).getD j.val 0

/-! ### Big-M numbers (tax_numbers.rs)

`Tax<T>` is a newtype over `num::Complex<T>`, commented `T + T * M`: `re` is
the finite part, `im` the penalty coefficient.  All arithmetic is delegated
to `num::Complex`, whose operations for a generic `Num` type are embedded
here verbatim. -/

/-- Mirrors `num::Complex<T>` as used by `Tax<T>`. -/
structure Cplx (α : Type) : Type where
  re : α
  im : α
deriving DecidableEq

/-- `num::Complex` addition: component-wise. -/
def Cplx.add {α : Type} [Add α] (x y : Cplx α) : Cplx α :=
  ⟨x.re + y.re, x.im + y.im⟩

/-- `num::Complex` subtraction: component-wise. -/
def Cplx.sub {α : Type} [Sub α] (x y : Cplx α) : Cplx α :=
  ⟨x.re - y.re, x.im - y.im⟩

/-- `num::Complex` multiplication: `(a+bi)(c+di) = (ac-bd) + (ad+bc)i`. -/
def Cplx.mul {α : Type} [Add α] [Sub α] [Mul α] (x y : Cplx α) : Cplx α :=
  ⟨x.re * y.re - x.im * y.im, x.re * y.im + x.im * y.re⟩

/-- `num::Complex` division for a generic `Num` type: multiply by the
conjugate and divide both components by `norm_sqr`. -/
def Cplx.div {α : Type} [Add α] [Sub α] [Mul α] [Div α] (x y : Cplx α) : Cplx α :=
  ⟨(x.re * y.re + x.im * y.im) / (y.re * y.re + y.im * y.im),
   (x.im * y.re - x.re * y.im) / (y.re * y.re + y.im * y.im)⟩

/-- Mirrors `pub struct Tax<T>(Complex<T>)` from tax_numbers.rs. -/
structure Tax (α : Type) : Type where
  c : Cplx α
deriving DecidableEq

/-- Mirrors `From<(T, T)> for Tax<T>`: `(finite, penalty)`. -/
def Tax.ofPair {α : Type} (p : α × α) : Tax α :=
  ⟨⟨p.1, p.2⟩⟩

/-- Mirrors `Tax::into_tax`: moves the finite part into the penalty slot. -/
def Tax.into_tax {α : Type} [Zero α] (t : Tax α) : Tax α :=
  ⟨⟨0, t.c.re⟩⟩

/-- The `functor_like_impl!(Add, add)` instance: delegate to `Complex`. -/
def Tax.add {α : Type} [Add α] (x y : Tax α) : Tax α :=
  ⟨Cplx.add x.c y.c⟩

/-- The `functor_like_impl!(Sub, sub)` instance: delegate to `Complex`. -/
def Tax.sub {α : Type} [Sub α] (x y : Tax α) : Tax α :=
  ⟨Cplx.sub x.c y.c⟩

/-- The `functor_like_impl!(Mul, mul)` instance: delegate to `Complex`. -/
def Tax.mul {α : Type} [Add α] [Sub α] [Mul α] (x y : Tax α) : Tax α :=
  ⟨Cplx.mul x.c y.c⟩

/-- The `functor_like_impl!(Div, div)` instance: delegate to `Complex`. -/
def Tax.div {α : Type} [Add α] [Sub α] [Mul α] [Div α] (x y : Tax α) : Tax α :=
  ⟨Cplx.div x.c y.c⟩

/-- Mirrors `Ord for Tax<T>`: compare penalty coefficients (`im`) first,
then finite parts (`re`), via `Ordering::then`. -/
def Tax.cmp {α : Type} [LinearOrder α] (x y : Tax α) : Ordering :=
  (compare x.c.im y.c.im).then (compare x.c.re y.c.re)

instance {α : Type} [Add α] : Add (Tax α) := ⟨Tax.add⟩

instance {α : Type} [Sub α] : Sub (Tax α) := ⟨Tax.sub⟩

instance {α : Type} [Add α] [Sub α] [Mul α] : Mul (Tax α) := ⟨Tax.mul⟩

instance {α : Type} [Add α] [Sub α] [Mul α] [Div α] : Div (Tax α) := ⟨Tax.div⟩

/-- Mirrors `Zero for Tax<T>`: `(0, 0)`. -/
instance {α : Type} [Zero α] : Zero (Tax α) := ⟨⟨⟨0, 0⟩⟩⟩

/-- Mirrors `One for Tax<T>`: `(1, 0)`. -/
instance {α : Type} [Zero α] [One α] : One (Tax α) := ⟨⟨⟨1, 0⟩⟩⟩

/-! ### Task model and canonicalization (task.rs) -/

/-- Mirrors `enum SimplexRelation { Less, Eq, Greater }`. -/
inductive SimplexRelation : Type
  | Less : SimplexRelation
  | Eq : SimplexRelation
  | Greater : SimplexRelation
deriving DecidableEq

/-- Mirrors `struct SimplexTerm<F>(F, Index)`: a coefficient and a (1-based)
variable index. -/
structure SimplexTerm (α : Type) : Type where
  coeff : α
  index : ℕ
deriving DecidableEq

/-- Mirrors `struct SimplexRestriction<F> { terms, relation, free }`. -/
structure SimplexRestriction (α : Type) : Type where
  terms : List (SimplexTerm α)
  relation : SimplexRelation
  free : α
deriving DecidableEq

/-- Mirrors `struct SimplexTarget<F> { terms, free }`. -/
structure SimplexTarget (α : Type) : Type where
  terms : List (SimplexTerm α)
  free : α
deriving DecidableEq

/-- Mirrors `struct SimplexTask<F> { restrictions, target_fn }`. -/
structure SimplexTask (α : Type) : Type where
  restrictions : List (SimplexRestriction α)
  target_fn : SimplexTarget α
deriving DecidableEq

/-- Mirrors `struct CanonicSimplexTask<F> { task, max_index }`. -/
structure CanonicSimplexTask (α : Type) : Type where
  task : SimplexTask α
  max_index : ℕ
deriving DecidableEq

/-- Mirrors `Not for SimplexTerm<F>`: multiply the coefficient by
`F::zero() - F::one()`. -/
def termNot (t : SimplexTerm ℚ) : SimplexTerm ℚ :=
  ⟨t.coeff * (0 - 1), t.index⟩

/-- The body of the `for restriction in &mut self.restrictions` loop of
`SimplexTask::canonize`: append the slack (`Less`) or surplus (`Greater`)
term at the incremented running index, set the relation to `Eq`, and if the
right-hand side is negative multiply every coefficient and the rhs by
`F::zero() - F::one()`.  Returns the rewritten restriction and the updated
`max_index`. -/
def canonizeOne (mi : ℕ) (r : SimplexRestriction ℚ) : SimplexRestriction ℚ × ℕ :=
  let step : List (SimplexTerm ℚ) × ℕ :=
    match r.relation with
    | SimplexRelation.Less => (r.terms ++ [⟨1, mi + 1⟩], mi + 1)
    | SimplexRelation.Eq => (r.terms, mi)
    | SimplexRelation.Greater => (r.terms ++ [termNot ⟨1, mi + 1⟩], mi + 1)
  if r.free < 0 then
    (⟨step.1.map (fun t => ⟨t.coeff * (0 - 1), t.index⟩), SimplexRelation.Eq,
      r.free * (0 - 1)⟩, step.2)
  else
    (⟨step.1, SimplexRelation.Eq, r.free⟩, step.2)

/-- The whole loop of `SimplexTask::canonize`, threading the mutable
`max_index` through the restrictions in order. -/
def canonizeRestrictions (mi : ℕ) :
    List (SimplexRestriction ℚ) → List (SimplexRestriction ℚ) × ℕ
  | [] => ([], mi)
  | r :: rest =>
    let hd := canonizeOne mi r
    let tail := canonizeRestrictions hd.2 rest
    (hd.1 :: tail.1, tail.2)

/-- Mirrors `SimplexTask::canonize`.  The Rust function computes the
maximum variable index with `max_by_key(..).unwrap()`, which PANICS when
the restrictions contain no terms at all; `none` models that panic
(canonize has no error channel in the source: its return type is
`CanonicSimplexTask<F>`, not a `Result`). -/
def canonize (t : SimplexTask ℚ) : Option (CanonicSimplexTask ℚ) :=
  match ((t.restrictions.flatMap (fun r => r.terms)).map (fun tm => tm.index)).max? with
  | none => none
  | some mi =>
    let res := canonizeRestrictions mi t.restrictions
    some ⟨⟨res.1, t.target_fn⟩, res.2⟩

/-- Number of slack/surplus columns the canonizer adds for a list of
restrictions: one per non-equality relation. -/
def slackCount : List (SimplexRestriction ℚ) → ℕ
  | [] => 0
  | r :: rest =>
    (match r.relation with
     | SimplexRelation.Eq => 0
     | _ => 1) + slackCount rest

/-! ### The pivot engine (simplex.rs) -/

/-- Mirrors `struct SimplexSolver<N> { _contents, basis, aim }`.  The
tableau `_contents` is an (m+1)×(n+1) `Array2`: m restriction rows plus the
objective row, n variable columns plus the right-hand-side column.  `basis`
is an `Array1<usize>` whose length the constructors do NOT tie to m. -/
structure SimplexSolver (m n : ℕ) (α : Type) : Type where
  contents : Fin (m + 1) → Fin (n + 1) → α
  basis : List ℕ
  aim : Aim

/-- Mirrors the view `fn z(&self)`: `self._contents.slice(s![-1, ..])` —
the ENTIRE last row, right-hand-side entry included. -/
def SimplexSolver.z {m n : ℕ} {α : Type} (s : SimplexSolver m n α) : Fin (n + 1) → α :=
  s.contents (Fin.last m)

/-- Mirrors the view `fn a(&self)`: `self._contents.slice(s![..-1, ..-1])` —
all rows but the last, all columns but the last. -/
def SimplexSolver.a {m n : ℕ} {α : Type} (s : SimplexSolver m n α) (i : Fin m) (j : Fin n) : α :=
  s.contents i.castSucc j.castSucc

/-- Mirrors the view `fn b(&self)`: `self._contents.slice(s![..-1, -1])` —
the right-hand-side column without the objective row. -/
def SimplexSolver.b {m n : ℕ} {α : Type} (s : SimplexSolver m n α) (i : Fin m) : α :=
  s.contents i.castSucc (Fin.last n)

/-- Mirrors `SimplexSolver::from_contents`: store the matrix and seed the
basis with the indices of the zero entries of the objective row (slice
`s![-1, ..-1]`, right-hand side excluded). -/
def SimplexSolver.from_contents {m n : ℕ} {α : Type} [Zero α] [DecidableEq α]
    (contents : Fin (m + 1) → Fin (n + 1) → α) (aim : Aim) : SimplexSolver m n α :=
  { contents := contents,
    basis := ((List.finRange n).filter
      (fun j => decide (contents (Fin.last m) j.castSucc = 0))).map Fin.val,
    aim := aim }

/-- Mirrors `SimplexSolver::is_optimal`: every entry of the `z()` view
(the whole last row) is ≤ 0 for Minimize, ≥ 0 for Maximize. -/
def SimplexSolver.is_optimal {m n : ℕ} (s : SimplexSolver m n ℚ) : Bool :=
  match s.aim with
  | Aim.Minimize => decide (∀ j : Fin (n + 1), s.z j ≤ 0)
  | Aim.Maximize => decide (∀ j : Fin (n + 1), 0 ≤ s.z j)

/-- Candidate list of `SimplexSolver::pivot_column`: the indexed entries of
`z()` with the trailing right-hand side dropped (`take(len - 1)`), filtered
by the aim-specific sign test. -/
def SimplexSolver.pivotColCands {m n : ℕ} (s : SimplexSolver m n ℚ) : List (Fin n × ℚ) :=
  match s.aim with
  | Aim.Minimize =>
    ((List.finRange n).map (fun j => (j, s.z j.castSucc))).filter (fun p => decide (0 < p.2))
  | Aim.Maximize =>
    ((List.finRange n).map (fun j => (j, s.z j.castSucc))).filter (fun p => decide (p.2 < 0))

/-- Mirrors `SimplexSolver::pivot_column`: Minimize takes `max_by_key` of
the strictly positive entries, Maximize `min_by_key` of the strictly
negative ones; `NoSolutions` when no candidate exists. -/
def SimplexSolver.pivot_column {m n : ℕ} (s : SimplexSolver m n ℚ) :
    Except SimplexMethodError (Fin n) :=
  match s.aim with
  | Aim.Minimize =>
    match maxByKeyLast Prod.snd s.pivotColCands with
    | some p => Except.ok p.1
    | none => Except.error SimplexMethodError.NoSolutions
  | Aim.Maximize =>
    match minByKeyFirst Prod.snd s.pivotColCands with
    | some p => Except.ok p.1
    | none => Except.error SimplexMethodError.NoSolutions

/-- Candidate list of `SimplexSolver::pivot_row`: rows of `a()` whose entry
in the pivot column is non-zero, paired with the ratio `b/a`, keeping only
non-zero strictly positive ratios. -/
def SimplexSolver.pivotRowCands {m n : ℕ} (s : SimplexSolver m n ℚ) (pivot_col : Fin n) :
    List (Fin m × ℚ) :=
  (((List.finRange m).filter (fun i => decide (¬ s.a i pivot_col = 0))).map
    (fun i => (i, s.b i / s.a i pivot_col))).filter
    (fun p => decide (¬ p.2 = 0) && decide (0 < p.2))

/-- Mirrors `SimplexSolver::pivot_row`: `min_by_key` over the ratio
candidates; `NoLimit` when none exists. -/
def SimplexSolver.pivot_row {m n : ℕ} (s : SimplexSolver m n ℚ) (pivot_col : Fin n) :
    Except SimplexMethodError (Fin m) :=
  match minByKeyFirst Prod.snd (s.pivotRowCands pivot_col) with
  | some p => Except.ok p.1
  | none => Except.error SimplexMethodError.NoLimit

/-- Mirrors `SimplexSolver::pivot`: column first, then row, then the pivot
value `self._contents[(row, col)]`. -/
def SimplexSolver.pivot {m n : ℕ} (s : SimplexSolver m n ℚ) :
    Except SimplexMethodError (Fin m × Fin n × ℚ) :=
  match s.pivot_column with
  | Except.error e => Except.error e
  | Except.ok col =>
    match s.pivot_row col with
    | Except.error e => Except.error e
    | Except.ok row => Except.ok (row, col, s.contents row.castSucc col.castSucc)

/-- Mirrors `SimplexSolver::make_iteration`: divide the pivot row by the
pivot value, then subtract from every other row (objective row included)
its pivot-column entry times the normalized pivot row, and record
`basis[p_row] = p_col` (an in-range `Array1` store in every reachable use). -/
def SimplexSolver.make_iteration {m n : ℕ} (s : SimplexSolver m n ℚ) :
    Except SimplexMethodError (SimplexSolver m n ℚ) :=
  match s.pivot with
  | Except.error e => Except.error e
  | Except.ok (p_row, p_col, pivot) =>
    Except.ok
      { contents := fun i j =>
          if i = p_row.castSucc then s.contents p_row.castSucc j / pivot
          else s.contents i j - s.contents i p_col.castSucc * (s.contents p_row.castSucc j / pivot),
        basis := s.basis.set p_row.val p_col.val,
        aim := s.aim }

/-- Mirrors `struct Solution<N> { basis_coeffs, coefficients }`. -/
structure Solution (n : ℕ) : Type where
  basis_coeffs : List (ℕ × ℚ)
  coefficients : Fin (n + 1) → ℚ

/-- The solution extraction at the end of `SimplexSolver::solve`:
`basis.iter().zip(self.b())` and the final objective row. -/
def SimplexSolver.extractSolution {m n : ℕ} (s : SimplexSolver m n ℚ) : Solution n :=
  { basis_coeffs := s.basis.zip ((List.finRange m).map s.b),
    coefficients := s.z }

/-- Mirrors the `while !self.is_optimal()` loop of `SimplexSolver::solve`,
fuel-indexed because the Rust loop has no termination guarantee under
degeneracy; `none` is exhausted fuel. -/
def SimplexSolver.solve {m n : ℕ} :
    ℕ → SimplexSolver m n ℚ → Option (Except SimplexMethodError (Solution n))
  | 0, _ => none
  | fuel + 1, s =>
    if s.is_optimal then some (Except.ok s.extractSolution)
    else
      match s.make_iteration with
      | Except.error e => some (Except.error e)
      | Except.ok s1 => SimplexSolver.solve fuel s1

/-! ### Tableau assembly (task.rs): `into_a_b_z`, `add_taxes`, `add_basis`,
`invert_z`, `into_contents`, and the two `Into<SimplexSolver<_>>` impls -/

/-- Mirrors `struct SimplaxTaskParts<F> { a, b, z }` (source spelling kept). -/
structure SimplaxTaskParts (α : Type) : Type where
  a : List (List α)
  b : List α
  z : List α

/-- Coefficient lookup of the `HashMap` the assembler builds from a term
list: keys are `index - 1`, later duplicates overwrite earlier ones, absent
keys default to zero.  (`usize` subtraction is modelled by `ℕ` subtraction;
the program only ever reaches this with 1-based indices.) -/
def termCoeff {α : Type} [Zero α] (terms : List (SimplexTerm α)) (j : ℕ) : α :=
  match terms.reverse.find? (fun tm => decide (tm.index - 1 = j)) with
  | some tm => tm.coeff
  | none => 0

/-- Mirrors `CanonicSimplexTask::into_a_b_z`: the dense m×max_index
constraint matrix, the rhs vector, and the objective row with the target
constant pushed at the end. -/
def CanonicSimplexTask.into_a_b_z {α : Type} [Zero α] (ct : CanonicSimplexTask α) :
    SimplaxTaskParts α :=
  { a := ct.task.restrictions.map
      (fun r => (List.range ct.max_index).map (fun j => termCoeff r.terms j)),
    b := ct.task.restrictions.map (fun r => r.free),
    z := (List.range ct.max_index).map (fun j => termCoeff ct.task.target_fn.terms j)
      ++ [ct.task.target_fn.free] }

/-- Mirrors `SimplaxTaskParts::<Tax<T>>::add_taxes`: add to `z` the vector
of per-column sums of `a` (plus the sum of `b` for the trailing slot), each
moved into the penalty component by `into_tax`. -/
def SimplaxTaskParts.add_taxes (p : SimplaxTaskParts (Tax ℚ)) : SimplaxTaskParts (Tax ℚ) :=
  let w := (p.a.headD []).length
  let colSum : ℕ → Tax ℚ := fun j => (p.a.map (fun row => row.getD j 0)).foldr Tax.add 0
  let bSum : Tax ℚ := p.b.foldr Tax.add 0
  let taxed : List (Tax ℚ) :=
    ((List.range w).map (fun j => Tax.into_tax (colSum j))) ++ [Tax.into_tax bSum]
  { a := p.a, b := p.b, z := List.zipWith Tax.add p.z taxed }

/-- Mirrors `SimplaxTaskParts::add_basis`: append an identity block to `a`
as artificial columns, extend `z` with zeros, and swap the objective
constant back to the last slot. -/
def SimplaxTaskParts.add_basis {α : Type} [Zero α] [One α] (p : SimplaxTaskParts α) :
    SimplaxTaskParts α :=
  let max_index := p.z.length - 1
  let restrictions_len := p.a.length
  { a := p.a.mapIdx (fun i row =>
      row ++ (List.range restrictions_len).map (fun k => if k = i then 1 else 0)),
    b := p.b,
    z := listSwap (p.z ++ List.replicate restrictions_len 0) max_index
      (max_index + restrictions_len) }

/-- Mirrors `SimplaxTaskParts::invert_z`: multiply every `z` entry by
`T::zero() - T::one()`. -/
def SimplaxTaskParts.invert_z {α : Type} [Zero α] [One α] [Mul α] [Sub α]
    (p : SimplaxTaskParts α) : SimplaxTaskParts α :=
  { a := p.a, b := p.b, z := p.z.map (fun x => x * (0 - 1)) }

/-- Mirrors `SimplaxTaskParts::into_contents`: push `b` as the last column
of `a`, then push `z` as the last row. -/
def SimplaxTaskParts.into_contents {α : Type} (p : SimplaxTaskParts α) : List (List α) :=
  (List.zipWith (fun row x => row ++ [x]) p.a p.b) ++ [p.z]

/-- Mirrors the plain `Into<SimplexSolver<F>> for CanonicSimplexTask<F>`
impl (the default, non-"taxes" build): `into_a_b_z`, `invert_z`,
`into_contents`, then `from_contents` with `Aim::Maximize` (the
`add_taxes`/`add_basis` calls are commented out in the source). -/
def CanonicSimplexTask.intoSolver {α : Type} [Zero α] [One α] [Mul α] [Sub α] [DecidableEq α]
    (ct : CanonicSimplexTask α) :
    SimplexSolver ct.task.restrictions.length ct.max_index α :=
  SimplexSolver.from_contents
    (ofLists ct.task.restrictions.length ct.max_index
      ((ct.into_a_b_z.invert_z).into_contents))
    Aim.Maximize

/-- Mirrors the Big-M `Into<SimplexSolver<Tax<F>>> for
CanonicSimplexTask<Tax<F>>` impl (the "taxes" build): `into_a_b_z`,
`add_taxes`, `add_basis`, `invert_z`, `into_contents`, then
`from_contents` with `Aim::Maximize`. -/
def CanonicSimplexTask.intoSolverTaxes (ct : CanonicSimplexTask (Tax ℚ)) :
    SimplexSolver ct.task.restrictions.length
      (ct.max_index + ct.task.restrictions.length) (Tax ℚ) :=
  SimplexSolver.from_contents
    (ofLists ct.task.restrictions.length (ct.max_index + ct.task.restrictions.length)
      (((ct.into_a_b_z.add_taxes).add_basis).invert_z).into_contents)
    Aim.Maximize

/-! ### Invariants and concrete states used by the claims -/

/-- The basis-identity invariant of the specification: the basis has one
entry per restriction row, and the sub-matrix of `a()` formed by the basis
columns is the m×m identity. -/
def basisIdentity {m n : ℕ} (s : SimplexSolver m n ℚ) : Prop :=
  s.basis.length = m ∧
  ∀ r : Fin m, ∃ c : Fin n, s.basis[r.val]? = some c.val ∧
    ∀ i : Fin m, s.a i c = if i = r then 1 else 0

instance {m n : ℕ} (s : SimplexSolver m n ℚ) : Decidable (basisIdentity s) := by
  unfold basisIdentity; infer_instance

/-- Concrete 1×1 tableau whose objective row is `[0, -5]`: the variable
entry is ≥ 0 but the right-hand-side entry is negative. -/
def exC1 : SimplexSolver 1 1 ℚ :=
  { contents := ofLists 1 1 [[1, 1], [0, -5]], basis := [], aim := Aim.Maximize }

/-- Concrete Minimize state with objective row `[3, -1, 0]`. -/
def exC3 : SimplexSolver 1 2 ℚ :=
  { contents := ofLists 1 2 [[1, 1, 2], [3, -1, 0]], basis := [], aim := Aim.Minimize }

/-- Concrete state with a valid basis-identity invariant, one pivot away
from optimality. -/
def exC6w : SimplexSolver 1 2 ℚ :=
  { contents := ofLists 1 2 [[1, 1, 4], [-3, 0, 0]], basis := [1], aim := Aim.Maximize }

/-- Concrete state whose two restriction rows tie in the min-ratio test
(ratios 2/1 and 4/2). -/
def exC10 : SimplexSolver 2 2 ℚ :=
  { contents := ofLists 2 2 [[1, 1, 2], [2, 2, 4], [-1, 0, 0]], basis := [0, 1],
    aim := Aim.Maximize }

/-- Concrete one-restriction task `x1 <= 4` with objective `3 x1`. -/
def exT4 : SimplexTask ℚ :=
  { restrictions := [⟨[⟨1, 1⟩], SimplexRelation.Less, 4⟩],
    target_fn := ⟨[⟨3, 1⟩], 0⟩ }

/-- The canonical form `canonize` produces for `exT4`. -/
def exCT4 : CanonicSimplexTask ℚ :=
  { task := { restrictions := [⟨[⟨1, 1⟩, ⟨1, 2⟩], SimplexRelation.Eq, 4⟩],
              target_fn := ⟨[⟨3, 1⟩], 0⟩ },
    max_index := 2 }

/-- A task with no restrictions at all (so no maximum variable index). -/
def exEmptyTask : SimplexTask ℚ :=
  { restrictions := [], target_fn := ⟨[⟨1, 1⟩], 0⟩ }

/-! ### Lemmas about the selection combinators -/

/-- `minByKeyFirst` returns `none` exactly on the empty list. -/
theorem minByKeyFirst_eq_none {β κ : Type} [LinearOrder κ] (key : β → κ) (l : List β) :
    minByKeyFirst key l = none ↔ l = [] := by
  cases l with
  | nil => simp [minByKeyFirst]
  | cons x xs =>
    simp only [minByKeyFirst]
    cases hrec : minByKeyFirst key xs with
    | none => simp
    | some m => constructor <;> intro h <;> simp_all <;> split at h <;> simp_all

/-- `maxByKeyLast` returns `none` exactly on the empty list. -/
theorem maxByKeyLast_eq_none {β κ : Type} [LinearOrder κ] (key : β → κ) (l : List β) :
    maxByKeyLast key l = none ↔ l = [] := by
  cases l with
  | nil => simp [maxByKeyLast]
  | cons x xs =>
    simp only [maxByKeyLast]
    cases hrec : maxByKeyLast key xs with
    | none => simp
    | some m => constructor <;> intro h <;> simp_all <;> split at h <;> simp_all

/-- The element `minByKeyFirst` returns belongs to the list. -/
theorem minByKeyFirst_mem {β κ : Type} [LinearOrder κ] (key : β → κ) (l : List β) (x : β)
    (h : minByKeyFirst key l = some x) : x ∈ l := by
  induction l generalizing x with
  | nil => simp [minByKeyFirst] at h
  | cons a t ih =>
    simp only [minByKeyFirst] at h
    cases hrec : minByKeyFirst key t with
    | none =>
      rw [hrec] at h
      change some a = some x at h
      injection h with h; exact h ▸ List.mem_cons_self a t
    | some m =>
      rw [hrec] at h
      change (if key m < key a then some m else some a) = some x at h
      by_cases hk : key m < key a
      · rw [if_pos hk] at h; injection h with h
        exact h ▸ List.mem_cons_of_mem a (ih m hrec)
      · rw [if_neg hk] at h; injection h with h; exact h ▸ List.mem_cons_self a t

/-- The element `minByKeyFirst` returns has a minimal key. -/
theorem minByKeyFirst_le {β κ : Type} [LinearOrder κ] (key : β → κ) (l : List β) (x : β)
    (h : minByKeyFirst key l = some x) : ∀ y ∈ l, key x ≤ key y := by
  induction l generalizing x with
  | nil => simp [minByKeyFirst] at h
  | cons a t ih =>
    simp only [minByKeyFirst] at h
    cases hrec : minByKeyFirst key t with
    | none =>
      rw [hrec] at h
      change some a = some x at h
      injection h with h
      have ht : t = [] := (minByKeyFirst_eq_none key t).mp hrec
      subst ht; subst h; intro y hy
      rw [List.mem_singleton] at hy; subst hy; exact le_refl _
    | some m =>
      rw [hrec] at h
      change (if key m < key a then some m else some a) = some x at h
      by_cases hk : key m < key a
      · rw [if_pos hk] at h; injection h with h; subst h
        intro y hy
        rcases List.mem_cons.mp hy with hy | hy
        · exact hy ▸ le_of_lt hk
        · exact ih m hrec y hy
      · rw [if_neg hk] at h; injection h with h; subst h
        intro y hy
        rcases List.mem_cons.mp hy with hy | hy
        · exact hy ▸ le_refl _
        · exact le_trans (not_lt.mp hk) (ih m hrec y hy)

/-- The element `maxByKeyLast` returns belongs to the list. -/
theorem maxByKeyLast_mem {β κ : Type} [LinearOrder κ] (key : β → κ) (l : List β) (x : β)
    (h : maxByKeyLast key l = some x) : x ∈ l := by
  induction l generalizing x with
  | nil => simp [maxByKeyLast] at h
  | cons a t ih =>
    simp only [maxByKeyLast] at h
    cases hrec : maxByKeyLast key t with
    | none =>
      rw [hrec] at h
      change some a = some x at h
      injection h with h; exact h ▸ List.mem_cons_self a t
    | some m =>
      rw [hrec] at h
      change (if key m < key a then some a else some m) = some x at h
      by_cases hk : key m < key a
      · rw [if_pos hk] at h; injection h with h; exact h ▸ List.mem_cons_self a t
      · rw [if_neg hk] at h; injection h with h
        exact h ▸ List.mem_cons_of_mem a (ih m hrec)

/-- The element `maxByKeyLast` returns has a maximal key. -/
theorem maxByKeyLast_le {β κ : Type} [LinearOrder κ] (key : β → κ) (l : List β) (x : β)
    (h : maxByKeyLast key l = some x) : ∀ y ∈ l, key y ≤ key x := by
  induction l generalizing x with
  | nil => simp [maxByKeyLast] at h
  | cons a t ih =>
    simp only [maxByKeyLast] at h
    cases hrec : maxByKeyLast key t with
    | none =>
      rw [hrec] at h
      change some a = some x at h
      injection h with h
      have ht : t = [] := (maxByKeyLast_eq_none key t).mp hrec
      subst ht; subst h; intro y hy
      rw [List.mem_singleton] at hy; subst hy; exact le_refl _
    | some m =>
      rw [hrec] at h
      change (if key m < key a then some a else some m) = some x at h
      by_cases hk : key m < key a
      · rw [if_pos hk] at h; injection h with h; subst h
        intro y hy
        rcases List.mem_cons.mp hy with hy | hy
        · exact hy ▸ le_refl _
        · exact le_trans (ih m hrec y hy) (le_of_lt hk)
      · rw [if_neg hk] at h; injection h with h; subst h
        intro y hy
        rcases List.mem_cons.mp hy with hy | hy
        · exact hy ▸ not_lt.mp hk
        · exact ih m hrec y hy

/-- On a list whose positions strictly increase, `minByKeyFirst` returns the
element with the smallest position among those attaining the minimal key:
the FIRST minimum, as Rust's `min_by_key` documents. -/
theorem minByKeyFirst_first {β κ γ : Type} [LinearOrder κ] [Preorder γ]
    (key : β → κ) (pos : β → γ) (l : List β)
    (hpw : l.Pairwise (fun p q => pos p < pos q)) (x : β)
    (h : minByKeyFirst key l = some x) :
    ∀ y ∈ l, key y ≤ key x → pos x ≤ pos y := by
  induction l generalizing x with
  | nil => simp [minByKeyFirst] at h
  | cons a t ih =>
    rw [List.pairwise_cons] at hpw
    simp only [minByKeyFirst] at h
    cases hrec : minByKeyFirst key t with
    | none =>
      rw [hrec] at h
      change some a = some x at h
      injection h with h
      have ht : t = [] := (minByKeyFirst_eq_none key t).mp hrec
      subst ht; subst h; intro y hy hk
      rw [List.mem_singleton] at hy; subst hy; exact le_refl _
    | some m =>
      rw [hrec] at h
      change (if key m < key a then some m else some a) = some x at h
      by_cases hk : key m < key a
      · rw [if_pos hk] at h; injection h with h; subst h
        intro y hy hky
        rcases List.mem_cons.mp hy with hy | hy
        · exact absurd (lt_of_lt_of_le hk (hy ▸ hky)) (lt_irrefl _)
        · exact ih hpw.2 m hrec y hy hky
      · rw [if_neg hk] at h; injection h with h; subst h
        intro y hy hky
        rcases List.mem_cons.mp hy with hy | hy
        · exact hy ▸ le_refl _
        · exact le_of_lt (hpw.1 y hy)

/-- On a list whose positions strictly increase, `maxByKeyLast` returns the
element with the largest position among those attaining the maximal key:
the LAST maximum, as Rust's `max_by_key` documents. -/
theorem maxByKeyLast_last {β κ γ : Type} [LinearOrder κ] [Preorder γ]
    (key : β → κ) (pos : β → γ) (l : List β)
    (hpw : l.Pairwise (fun p q => pos p < pos q)) (x : β)
    (h : maxByKeyLast key l = some x) :
    ∀ y ∈ l, key x ≤ key y → pos y ≤ pos x := by
  induction l generalizing x with
  | nil => simp [maxByKeyLast] at h
  | cons a t ih =>
    rw [List.pairwise_cons] at hpw
    simp only [maxByKeyLast] at h
    cases hrec : maxByKeyLast key t with
    | none =>
      rw [hrec] at h
      change some a = some x at h
      injection h with h
      have ht : t = [] := (maxByKeyLast_eq_none key t).mp hrec
      subst ht; subst h; intro y hy hk
      rw [List.mem_singleton] at hy; subst hy; exact le_refl _
    | some m =>
      rw [hrec] at h
      change (if key m < key a then some a else some m) = some x at h
      by_cases hk : key m < key a
      · rw [if_pos hk] at h; injection h with h; subst h
        intro y hy hky
        rcases List.mem_cons.mp hy with hy | hy
        · exact hy ▸ le_refl _
        · exact absurd (lt_of_le_of_lt (le_trans hky (maxByKeyLast_le key t m hrec y hy)) hk)
            (lt_irrefl _)
      · rw [if_neg hk] at h; injection h with h; subst h
        intro y hy hky
        rcases List.mem_cons.mp hy with hy | hy
        · exact hy ▸ le_of_lt (hpw.1 m (maxByKeyLast_mem key t m hrec))
        · exact ih hpw.2 m hrec y hy hky

/-! ### Characterization of the pivot candidate lists -/

/-- Membership in the row-candidate list: exactly the rows with a non-zero
pivot-column entry, paired with their (strictly positive) ratio. -/
theorem mem_pivotRowCands {m n : ℕ} (s : SimplexSolver m n ℚ) (c : Fin n) (p : Fin m × ℚ) :
    p ∈ s.pivotRowCands c ↔
      s.a p.1 c ≠ 0 ∧ p.2 = s.b p.1 / s.a p.1 c ∧ 0 < p.2 := by
  constructor
  · intro hp
    obtain ⟨hmem, hbool⟩ := List.mem_filter.mp hp
    obtain ⟨j, hj, hje⟩ := List.mem_map.mp hmem
    obtain ⟨hjr, hjne⟩ := List.mem_filter.mp hj
    rw [decide_eq_true_eq] at hjne
    rw [Bool.and_eq_true, decide_eq_true_eq, decide_eq_true_eq] at hbool
    subst hje
    exact ⟨hjne, rfl, hbool.2⟩
  · intro hyp
    obtain ⟨hne, hq, hqpos⟩ := hyp
    apply List.mem_filter.mpr
    constructor
    · apply List.mem_map.mpr
      refine ⟨p.1, List.mem_filter.mpr ⟨List.mem_finRange p.1, ?_⟩, ?_⟩
      · rw [decide_eq_true_eq]; exact hne
      · rw [← hq]
    · rw [Bool.and_eq_true, decide_eq_true_eq, decide_eq_true_eq]
      exact ⟨ne_of_gt hqpos, hqpos⟩

/-- The row-candidate list is ordered by strictly increasing row index. -/
theorem pivotRowCands_pairwise {m n : ℕ} (s : SimplexSolver m n ℚ) (c : Fin n) :
    (s.pivotRowCands c).Pairwise (fun p q => p.1 < q.1) := by
  unfold SimplexSolver.pivotRowCands
  apply List.Pairwise.sublist (List.filter_sublist _)
  rw [List.pairwise_map]
  exact List.Pairwise.sublist (List.filter_sublist _) (List.pairwise_lt_finRange m)

/-- Membership in the column-candidate list under Minimize: exactly the
variable columns with strictly positive objective entry. -/
theorem mem_pivotColCands_min {m n : ℕ} (s : SimplexSolver m n ℚ) (haim : s.aim = Aim.Minimize)
    (p : Fin n × ℚ) :
    p ∈ s.pivotColCands ↔ p.2 = s.z p.1.castSucc ∧ 0 < p.2 := by
  simp only [SimplexSolver.pivotColCands, haim]
  constructor
  · intro hp
    obtain ⟨hmem, hbool⟩ := List.mem_filter.mp hp
    obtain ⟨j, hj, hje⟩ := List.mem_map.mp hmem
    rw [decide_eq_true_eq] at hbool
    subst hje
    exact ⟨rfl, hbool⟩
  · intro hyp
    obtain ⟨hq, hqpos⟩ := hyp
    apply List.mem_filter.mpr
    refine ⟨List.mem_map.mpr ⟨p.1, List.mem_finRange p.1, ?_⟩, ?_⟩
    · rw [← hq]
    · rw [decide_eq_true_eq]; exact hqpos

/-- Membership in the column-candidate list under Maximize: exactly the
variable columns with strictly negative objective entry. -/
theorem mem_pivotColCands_max {m n : ℕ} (s : SimplexSolver m n ℚ) (haim : s.aim = Aim.Maximize)
    (p : Fin n × ℚ) :
    p ∈ s.pivotColCands ↔ p.2 = s.z p.1.castSucc ∧ p.2 < 0 := by
  simp only [SimplexSolver.pivotColCands, haim]
  constructor
  · intro hp
    obtain ⟨hmem, hbool⟩ := List.mem_filter.mp hp
    obtain ⟨j, hj, hje⟩ := List.mem_map.mp hmem
    rw [decide_eq_true_eq] at hbool
    subst hje
    exact ⟨rfl, hbool⟩
  · intro hyp
    obtain ⟨hq, hqneg⟩ := hyp
    apply List.mem_filter.mpr
    refine ⟨List.mem_map.mpr ⟨p.1, List.mem_finRange p.1, ?_⟩, ?_⟩
    · rw [← hq]
    · rw [decide_eq_true_eq]; exact hqneg

/-- The column-candidate list is ordered by strictly increasing column
index. -/
theorem pivotColCands_pairwise {m n : ℕ} (s : SimplexSolver m n ℚ) :
    s.pivotColCands.Pairwise (fun p q => p.1 < q.1) := by
  unfold SimplexSolver.pivotColCands
  cases s.aim <;>
  · apply List.Pairwise.sublist (List.filter_sublist _)
    rw [List.pairwise_map]
    exact (List.pairwise_lt_finRange n).imp (fun h => h)

/-! ### Specification of pivot selection -/

/-- A successful `pivot_row` returns a row with non-zero pivot-column entry
and minimal strictly-positive ratio. -/
theorem pivot_row_ok {m n : ℕ} (s : SimplexSolver m n ℚ) (c : Fin n) (r : Fin m)
    (h : s.pivot_row c = Except.ok r) :
    s.a r c ≠ 0 ∧ 0 < s.b r / s.a r c ∧
      ∀ i : Fin m, s.a i c ≠ 0 → 0 < s.b i / s.a i c →
        s.b r / s.a r c ≤ s.b i / s.a i c := by
  unfold SimplexSolver.pivot_row at h
  cases hmin : minByKeyFirst Prod.snd (s.pivotRowCands c) with
  | none => rw [hmin] at h; exact absurd h (by simp)
  | some p =>
    rw [hmin] at h
    injection h with h
    obtain ⟨hne, hq, hqpos⟩ := (mem_pivotRowCands s c p).mp (minByKeyFirst_mem _ _ _ hmin)
    subst h
    refine ⟨hne, hq ▸ hqpos, ?_⟩
    intro i hine hipos
    have hmem : (i, s.b i / s.a i c) ∈ s.pivotRowCands c :=
      (mem_pivotRowCands s c (i, s.b i / s.a i c)).mpr ⟨hine, rfl, hipos⟩
    have := minByKeyFirst_le Prod.snd _ p hmin (i, s.b i / s.a i c) hmem
    rw [hq] at this
    exact this

/-- `pivot_row` fails with `NoLimit` exactly when no restriction row has a
non-zero pivot-column entry with strictly positive ratio. -/
theorem pivot_row_err {m n : ℕ} (s : SimplexSolver m n ℚ) (c : Fin n) :
    s.pivot_row c = Except.error SimplexMethodError.NoLimit ↔
      ∀ i : Fin m, s.a i c ≠ 0 → ¬ 0 < s.b i / s.a i c := by
  constructor
  · intro h i hine hipos
    unfold SimplexSolver.pivot_row at h
    cases hmin : minByKeyFirst Prod.snd (s.pivotRowCands c) with
    | none =>
      have hnil : s.pivotRowCands c = [] := (minByKeyFirst_eq_none _ _).mp hmin
      have hmem : (i, s.b i / s.a i c) ∈ s.pivotRowCands c :=
        (mem_pivotRowCands s c (i, s.b i / s.a i c)).mpr ⟨hine, rfl, hipos⟩
      rw [hnil] at hmem
      exact absurd hmem (List.not_mem_nil _)
    | some p => rw [hmin] at h; exact absurd h (by simp)
  · intro hall
    unfold SimplexSolver.pivot_row
    cases hmin : minByKeyFirst Prod.snd (s.pivotRowCands c) with
    | none => rfl
    | some p =>
      obtain ⟨hne, hq, hqpos⟩ :=
        (mem_pivotRowCands s c p).mp (minByKeyFirst_mem _ _ _ hmin)
      rw [hq] at hqpos
      exact absurd hqpos (hall _ hne)

/-- Among rows tied at the minimal ratio, a successful `pivot_row` returns
the smallest row index (Rust `min_by_key` keeps the first minimum). -/
theorem pivot_row_tie {m n : ℕ} (s : SimplexSolver m n ℚ) (c : Fin n) (r : Fin m)
    (h : s.pivot_row c = Except.ok r) :
    ∀ i : Fin m, s.a i c ≠ 0 → 0 < s.b i / s.a i c →
      s.b i / s.a i c = s.b r / s.a r c → r ≤ i := by
  unfold SimplexSolver.pivot_row at h
  cases hmin : minByKeyFirst Prod.snd (s.pivotRowCands c) with
  | none => rw [hmin] at h; exact absurd h (by simp)
  | some p =>
    rw [hmin] at h
    injection h with h
    obtain ⟨hne, hq, hqpos⟩ := (mem_pivotRowCands s c p).mp (minByKeyFirst_mem _ _ _ hmin)
    subst h
    intro i hine hipos htie
    have hmem : (i, s.b i / s.a i c) ∈ s.pivotRowCands c :=
      (mem_pivotRowCands s c (i, s.b i / s.a i c)).mpr ⟨hine, rfl, hipos⟩
    have := minByKeyFirst_first Prod.snd Prod.fst _ (pivotRowCands_pairwise s c) p hmin
      (i, s.b i / s.a i c) hmem (by rw [← hq] at htie; exact le_of_eq htie)
    exact this

/-- Under Minimize a successful `pivot_column` returns a column whose
objective entry is strictly positive and maximal among all variable
columns. -/
theorem pivot_column_ok_min {m n : ℕ} (s : SimplexSolver m n ℚ) (haim : s.aim = Aim.Minimize)
    (c : Fin n) (h : s.pivot_column = Except.ok c) :
    0 < s.z c.castSucc ∧ ∀ j : Fin n, s.z j.castSucc ≤ s.z c.castSucc := by
  unfold SimplexSolver.pivot_column at h
  rw [haim] at h
  cases hmax : maxByKeyLast Prod.snd s.pivotColCands with
  | none => rw [hmax] at h; exact absurd h (by simp)
  | some p =>
    rw [hmax] at h
    injection h with h
    obtain ⟨hq, hqpos⟩ := (mem_pivotColCands_min s haim p).mp (maxByKeyLast_mem _ _ _ hmax)
    subst h
    refine ⟨hq ▸ hqpos, ?_⟩
    intro j
    by_cases hj : 0 < s.z j.castSucc
    · have hmem : (j, s.z j.castSucc) ∈ s.pivotColCands :=
        (mem_pivotColCands_min s haim (j, s.z j.castSucc)).mpr ⟨rfl, hj⟩
      have := maxByKeyLast_le Prod.snd _ p hmax (j, s.z j.castSucc) hmem
      rw [hq] at this
      exact this
    · exact le_trans (not_lt.mp hj) (le_of_lt (hq ▸ hqpos))

/-- Under Maximize a successful `pivot_column` returns a column whose
objective entry is strictly negative and minimal among all variable
columns. -/
theorem pivot_column_ok_max {m n : ℕ} (s : SimplexSolver m n ℚ) (haim : s.aim = Aim.Maximize)
    (c : Fin n) (h : s.pivot_column = Except.ok c) :
    s.z c.castSucc < 0 ∧ ∀ j : Fin n, s.z c.castSucc ≤ s.z j.castSucc := by
  unfold SimplexSolver.pivot_column at h
  rw [haim] at h
  cases hmin : minByKeyFirst Prod.snd s.pivotColCands with
  | none => rw [hmin] at h; exact absurd h (by simp)
  | some p =>
    rw [hmin] at h
    injection h with h
    obtain ⟨hq, hqneg⟩ := (mem_pivotColCands_max s haim p).mp (minByKeyFirst_mem _ _ _ hmin)
    subst h
    refine ⟨hq ▸ hqneg, ?_⟩
    intro j
    by_cases hj : s.z j.castSucc < 0
    · have hmem : (j, s.z j.castSucc) ∈ s.pivotColCands :=
        (mem_pivotColCands_max s haim (j, s.z j.castSucc)).mpr ⟨rfl, hj⟩
      have := minByKeyFirst_le Prod.snd _ p hmin (j, s.z j.castSucc) hmem
      rw [hq] at this
      exact this
    · exact le_trans (le_of_lt (hq ▸ hqneg)) (not_lt.mp hj)

/-- Under Minimize `pivot_column` fails with `NoSolutions` exactly when no
variable column has a strictly positive objective entry. -/
theorem pivot_column_err_min {m n : ℕ} (s : SimplexSolver m n ℚ) (haim : s.aim = Aim.Minimize) :
    s.pivot_column = Except.error SimplexMethodError.NoSolutions ↔
      ∀ j : Fin n, ¬ 0 < s.z j.castSucc := by
  constructor
  · intro h j hj
    unfold SimplexSolver.pivot_column at h
    rw [haim] at h
    cases hmax : maxByKeyLast Prod.snd s.pivotColCands with
    | none =>
      have hnil : s.pivotColCands = [] := (maxByKeyLast_eq_none _ _).mp hmax
      have hmem : (j, s.z j.castSucc) ∈ s.pivotColCands :=
        (mem_pivotColCands_min s haim (j, s.z j.castSucc)).mpr ⟨rfl, hj⟩
      rw [hnil] at hmem
      exact absurd hmem (List.not_mem_nil _)
    | some p => rw [hmax] at h; exact absurd h (by simp)
  · intro hall
    unfold SimplexSolver.pivot_column
    rw [haim]
    cases hmax : maxByKeyLast Prod.snd s.pivotColCands with
    | none => rfl
    | some p =>
      obtain ⟨hq, hqpos⟩ := (mem_pivotColCands_min s haim p).mp (maxByKeyLast_mem _ _ _ hmax)
      rw [hq] at hqpos
      exact absurd hqpos (hall _)

/-- Under Maximize `pivot_column` fails with `NoSolutions` exactly when no
variable column has a strictly negative objective entry. -/
theorem pivot_column_err_max {m n : ℕ} (s : SimplexSolver m n ℚ) (haim : s.aim = Aim.Maximize) :
    s.pivot_column = Except.error SimplexMethodError.NoSolutions ↔
      ∀ j : Fin n, ¬ s.z j.castSucc < 0 := by
  constructor
  · intro h j hj
    unfold SimplexSolver.pivot_column at h
    rw [haim] at h
    cases hmin : minByKeyFirst Prod.snd s.pivotColCands with
    | none =>
      have hnil : s.pivotColCands = [] := (minByKeyFirst_eq_none _ _).mp hmin
      have hmem : (j, s.z j.castSucc) ∈ s.pivotColCands :=
        (mem_pivotColCands_max s haim (j, s.z j.castSucc)).mpr ⟨rfl, hj⟩
      rw [hnil] at hmem
      exact absurd hmem (List.not_mem_nil _)
    | some p => rw [hmin] at h; exact absurd h (by simp)
  · intro hall
    unfold SimplexSolver.pivot_column
    rw [haim]
    cases hmin : minByKeyFirst Prod.snd s.pivotColCands with
    | none => rfl
    | some p =>
      obtain ⟨hq, hqneg⟩ := (mem_pivotColCands_max s haim p).mp (minByKeyFirst_mem _ _ _ hmin)
      rw [hq] at hqneg
      exact absurd hqneg (hall _)

/-- Under Minimize, among columns tied at the maximal positive entry,
`pivot_column` returns the largest column index (Rust `max_by_key` keeps
the last maximum). -/
theorem pivot_column_tie_min {m n : ℕ} (s : SimplexSolver m n ℚ) (haim : s.aim = Aim.Minimize)
    (c : Fin n) (h : s.pivot_column = Except.ok c) :
    ∀ j : Fin n, 0 < s.z j.castSucc → s.z j.castSucc = s.z c.castSucc → j ≤ c := by
  unfold SimplexSolver.pivot_column at h
  rw [haim] at h
  cases hmax : maxByKeyLast Prod.snd s.pivotColCands with
  | none => rw [hmax] at h; exact absurd h (by simp)
  | some p =>
    rw [hmax] at h
    injection h with h
    obtain ⟨hq, hqpos⟩ := (mem_pivotColCands_min s haim p).mp (maxByKeyLast_mem _ _ _ hmax)
    subst h
    intro j hj htie
    have hmem : (j, s.z j.castSucc) ∈ s.pivotColCands :=
      (mem_pivotColCands_min s haim (j, s.z j.castSucc)).mpr ⟨rfl, hj⟩
    exact maxByKeyLast_last Prod.snd Prod.fst _ (pivotColCands_pairwise s) p hmax
      (j, s.z j.castSucc) hmem (by rw [← hq] at htie; exact le_of_eq htie.symm)

/-- Under Maximize, among columns tied at the minimal negative entry,
`pivot_column` returns the smallest column index (Rust `min_by_key` keeps
the first minimum). -/
theorem pivot_column_tie_max {m n : ℕ} (s : SimplexSolver m n ℚ) (haim : s.aim = Aim.Maximize)
    (c : Fin n) (h : s.pivot_column = Except.ok c) :
    ∀ j : Fin n, s.z j.castSucc < 0 → s.z j.castSucc = s.z c.castSucc → c ≤ j := by
  unfold SimplexSolver.pivot_column at h
  rw [haim] at h
  cases hmin : minByKeyFirst Prod.snd s.pivotColCands with
  | none => rw [hmin] at h; exact absurd h (by simp)
  | some p =>
    rw [hmin] at h
    injection h with h
    obtain ⟨hq, hqneg⟩ := (mem_pivotColCands_max s haim p).mp (minByKeyFirst_mem _ _ _ hmin)
    subst h
    intro j hj htie
    have hmem : (j, s.z j.castSucc) ∈ s.pivotColCands :=
      (mem_pivotColCands_max s haim (j, s.z j.castSucc)).mpr ⟨rfl, hj⟩
    exact minByKeyFirst_first Prod.snd Prod.fst _ (pivotColCands_pairwise s) p hmin
      (j, s.z j.castSucc) hmem (by rw [← hq] at htie; exact le_of_eq htie)

/-! ### Inversion of `pivot` and `make_iteration`, basis invariant -/

/-- A successful `pivot` decomposes into a successful column choice, a
successful row choice, and the tableau entry at their crossing. -/
theorem pivot_ok {m n : ℕ} (s : SimplexSolver m n ℚ) (pc : Fin m × Fin n × ℚ)
    (h : s.pivot = Except.ok pc) :
    s.pivot_column = Except.ok pc.2.1 ∧ s.pivot_row pc.2.1 = Except.ok pc.1 ∧
      pc.2.2 = s.contents pc.1.castSucc pc.2.1.castSucc := by
  unfold SimplexSolver.pivot at h
  cases hcol : s.pivot_column with
  | error e => rw [hcol] at h; exact Except.noConfusion h
  | ok col =>
    rw [hcol] at h
    change (match s.pivot_row col with
      | Except.error e => Except.error e
      | Except.ok row =>
        Except.ok (row, col, s.contents row.castSucc col.castSucc)) = Except.ok pc at h
    cases hrow : s.pivot_row col with
    | error e => rw [hrow] at h; exact Except.noConfusion h
    | ok row =>
      rw [hrow] at h
      injection h with h
      subst h
      exact ⟨rfl, hrow, rfl⟩

/-- Inversion of a successful `make_iteration`: it performed the
Gauss-Jordan step at the chosen pivot and updated the basis there. -/
theorem make_iteration_ok {m n : ℕ} (s s1 : SimplexSolver m n ℚ)
    (h : s.make_iteration = Except.ok s1) :
    ∃ (r : Fin m) (c : Fin n),
      s.pivot_column = Except.ok c ∧ s.pivot_row c = Except.ok r ∧
      s1.aim = s.aim ∧ s1.basis = s.basis.set r.val c.val ∧
      s1.contents = fun i j =>
        if i = r.castSucc then
          s.contents r.castSucc j / s.contents r.castSucc c.castSucc
        else
          s.contents i j - s.contents i c.castSucc *
            (s.contents r.castSucc j / s.contents r.castSucc c.castSucc) := by
  unfold SimplexSolver.make_iteration at h
  cases hp : s.pivot with
  | error e => rw [hp] at h; exact Except.noConfusion h
  | ok pc =>
    obtain ⟨r, c, v⟩ := pc
    rw [hp] at h
    obtain ⟨hcol, hrow, hval⟩ := pivot_ok s (r, c, v) hp
    have hval2 : v = s.contents r.castSucc c.castSucc := hval
    have hcol2 : s.pivot_column = Except.ok c := hcol
    have hrow2 : s.pivot_row c = Except.ok r := hrow
    injection h with h
    subst h
    subst hval2
    exact ⟨r, c, hcol2, hrow2, rfl, rfl, rfl⟩

/-- The Gauss-Jordan pivot step preserves the basis-identity invariant:
the new pivot column becomes the unit vector of its row while every other
basic column is untouched. -/
theorem basisIdentity_preserved {m n : ℕ} (s s1 : SimplexSolver m n ℚ)
    (hid : basisIdentity s) (h : s.make_iteration = Except.ok s1) : basisIdentity s1 := by
  obtain ⟨r, c, hcol, hrow, haim, hbasis, hcontents⟩ := make_iteration_ok s s1 h
  obtain ⟨hpne, hppos, hminimal⟩ := pivot_row_ok s c r hrow
  obtain ⟨hlen, hb⟩ := hid
  have hpiv : s.contents r.castSucc c.castSucc ≠ 0 := hpne
  constructor
  · rw [hbasis, List.length_set, hlen]
  · intro r2
    by_cases hr2 : r2 = r
    · subst hr2
      refine ⟨c, ?_, ?_⟩
      · rw [hbasis]
        exact List.getElem?_set_eq_of_lt _ (by rw [hlen]; exact r2.isLt)
      · intro i
        show s1.contents i.castSucc c.castSucc = _
        simp only [hcontents]
        by_cases hi : i = r2
        · subst hi
          rw [if_pos rfl, div_self hpiv, if_pos rfl]
        · rw [if_neg (fun he => hi (Fin.castSucc_inj.mp he)), div_self hpiv, mul_one,
            sub_self, if_neg hi]
    · obtain ⟨c2, hget, hcid⟩ := hb r2
      have hz : s.contents r.castSucc c2.castSucc = 0 := by
        have hh := hcid r
        rwa [if_neg (fun he => hr2 he.symm)] at hh
      refine ⟨c2, ?_, ?_⟩
      · rw [hbasis, List.getElem?_set_ne (fun hv => hr2 (Fin.val_injective hv).symm)]
        exact hget
      · intro i
        show s1.contents i.castSucc c2.castSucc = _
        simp only [hcontents]
        by_cases hi : i = r
        · subst hi
          rw [if_pos rfl, hz, zero_div, if_neg (fun he => hr2 (he.symm))]
        · rw [if_neg (fun he => hi (Fin.castSucc_inj.mp he)), hz, zero_div, mul_zero,
            sub_zero]
          exact hcid i

/-! ### Lemmas about canonicalization -/

/-- One canonicalization step advances the running index by one per
non-equality relation. -/
theorem canonizeOne_snd (mi : ℕ) (r : SimplexRestriction ℚ) :
    (canonizeOne mi r).2 = mi + slackCount [r] := by
  obtain ⟨ts, rel, f⟩ := r
  unfold canonizeOne
  cases rel <;> by_cases hf : f < 0 <;> simp [hf, slackCount]

/-- Canonicalizing preserves the number of restrictions. -/
theorem canonizeRestrictions_len (mi : ℕ) (rs : List (SimplexRestriction ℚ)) :
    (canonizeRestrictions mi rs).1.length = rs.length := by
  induction rs generalizing mi with
  | nil => rfl
  | cons r rest ih => simp [canonizeRestrictions, ih]

/-- The final running index after the canonicalization loop. -/
theorem canonizeRestrictions_snd (mi : ℕ) (rs : List (SimplexRestriction ℚ)) :
    (canonizeRestrictions mi rs).2 = mi + slackCount rs := by
  induction rs generalizing mi with
  | nil => rfl
  | cons r rest ih =>
    show (canonizeRestrictions (canonizeOne mi r).2 rest).2 = _
    rw [ih, canonizeOne_snd]
    show mi + slackCount [r] + slackCount rest = mi + slackCount (r :: rest)
    simp [slackCount]
    omega

/-- The i-th canonicalized restriction is the one-step transform of the
i-th input restriction at the running index accumulated over the first i
inputs. -/
theorem canonizeRestrictions_get (mi : ℕ) (rs : List (SimplexRestriction ℚ)) (i : ℕ)
    (hi : i < rs.length) (hi2 : i < (canonizeRestrictions mi rs).1.length) :
    (canonizeRestrictions mi rs).1.get ⟨i, hi2⟩ =
      (canonizeOne (mi + slackCount (rs.take i)) (rs.get ⟨i, hi⟩)).1 := by
  induction rs generalizing mi i with
  | nil => exact absurd hi (Nat.not_lt_zero i)
  | cons r rest ih =>
    cases i with
    | zero =>
      show (canonizeOne mi r).1 = (canonizeOne (mi + slackCount []) r).1
      rw [show slackCount ([] : List (SimplexRestriction ℚ)) = 0 from rfl, Nat.add_zero]
    | succ k =>
      have hk : k < rest.length := Nat.lt_of_succ_lt_succ hi
      have hk2 : k < (canonizeRestrictions (canonizeOne mi r).2 rest).1.length := by
        rw [canonizeRestrictions_len]; exact hk
      show (canonizeRestrictions (canonizeOne mi r).2 rest).1.get ⟨k, hk2⟩ = _
      rw [ih ((canonizeOne mi r).2) k hk hk2, canonizeOne_snd]
      show (canonizeOne (mi + slackCount [r] + slackCount (rest.take k)) (rest.get ⟨k, hk⟩)).1 =
        (canonizeOne (mi + slackCount (r :: rest.take k)) (rest.get ⟨k, hk⟩)).1
      have harg : mi + slackCount [r] + slackCount (rest.take k) =
          mi + slackCount (r :: rest.take k) := by
        simp [slackCount]
        omega
      rw [harg]

/-! ### The claims -/

/-- Claim C1, counterexample: in the concrete Maximize state `exC1` every
entry of the last row EXCLUDING the right-hand-side column is ≥ 0, yet
`is_optimal` returns `false`, because the code's `z()` view
(`slice(s![-1, ..])`) also contains the right-hand-side entry (here -5). -/
theorem claim_C1_counterexample :
    exC1.is_optimal = false ∧ ∀ j : Fin 1, 0 ≤ exC1.z j.castSucc := by
  constructor
  · decide
  · decide

/-- Claim C1, amended: `is_optimal` returns true exactly when every entry
of the ENTIRE last tableau row — the right-hand-side column included — is
≥ 0 under Maximize, resp. ≤ 0 under Minimize. -/
theorem claim_C1_amended {m n : ℕ} (s : SimplexSolver m n ℚ) :
    s.is_optimal = true ↔
      ∀ j : Fin (n + 1),
        match s.aim with
        | Aim.Minimize => s.z j ≤ 0
        | Aim.Maximize => 0 ≤ s.z j := by
  unfold SimplexSolver.is_optimal
  cases haim : s.aim <;> simp

/-- Claim C5, counterexample: multiplication of two `Tax` numbers is NOT
component-wise: `(0,1) × (0,1)` yields `(-1,0)` (complex multiplication of
the underlying pair), not `(0·0, 1·1) = (0,1)`. -/
theorem claim_C5_counterexample :
    Tax.mul (Tax.ofPair ((0 : ℚ), 1)) (Tax.ofPair ((0 : ℚ), 1)) ≠
      Tax.ofPair ((0 * 0 : ℚ), 1 * 1) := by
  norm_num [Tax.mul, Cplx.mul, Tax.ofPair]

/-- Claim C5, amended: `+` and `-` act component-wise on the
(finite, penalty) pair, but `×` and `÷` follow the complex-number formulas
of the wrapped `num::Complex` value: `(a,p)×(b,q) = (ab-pq, aq+pb)` and
`(a,p)÷(b,q) = ((ab+pq)/(b²+q²), (pb-aq)/(b²+q²))`. -/
theorem claim_C5_amended (a p b q : ℚ) :
    Tax.add (Tax.ofPair (a, p)) (Tax.ofPair (b, q)) = Tax.ofPair (a + b, p + q) ∧
    Tax.sub (Tax.ofPair (a, p)) (Tax.ofPair (b, q)) = Tax.ofPair (a - b, p - q) ∧
    Tax.mul (Tax.ofPair (a, p)) (Tax.ofPair (b, q)) =
      Tax.ofPair (a * b - p * q, a * q + p * b) ∧
    Tax.div (Tax.ofPair (a, p)) (Tax.ofPair (b, q)) =
      Tax.ofPair ((a * b + p * q) / (b * b + q * q), (p * b - a * q) / (b * b + q * q)) :=
  ⟨rfl, rfl, rfl, rfl⟩

/-- Claim C7: the `Tax` ordering is lexicographic with the penalty
coefficient dominating: a strictly larger penalty wins regardless of the
finite parts, and equal penalties defer to the finite parts. -/
theorem claim_C7 (a b p q : ℚ) :
    (q < p → Tax.cmp (Tax.ofPair (a, p)) (Tax.ofPair (b, q)) = Ordering.gt) ∧
    (p = q → Tax.cmp (Tax.ofPair (a, p)) (Tax.ofPair (b, q)) = compare a b) := by
  constructor
  · intro h
    have hgt : compare p q = Ordering.gt := compare_gt_iff_gt.mpr h
    unfold Tax.cmp Tax.ofPair
    rw [show (⟨⟨a, p⟩⟩ : Tax ℚ).c.im = p from rfl, show (⟨⟨b, q⟩⟩ : Tax ℚ).c.im = q from rfl,
      hgt]
    rfl
  · intro h
    unfold Tax.cmp Tax.ofPair
    rw [show (⟨⟨a, p⟩⟩ : Tax ℚ).c.im = p from rfl, show (⟨⟨b, q⟩⟩ : Tax ℚ).c.im = q from rfl,
      h, compare_eq_iff_eq.mpr rfl]
    rfl

/-- Claim C7, witness: `(-100, 1) > (100, 0)` despite the smaller finite
part. -/
theorem claim_C7_witness :
    Tax.cmp (Tax.ofPair ((-100 : ℚ), 1)) (Tax.ofPair ((100 : ℚ), 0)) = Ordering.gt :=
  (claim_C7 (-100) 100 1 0).1 (by norm_num)

/-- Claim C9: both tableau-assembly paths — the plain conversion and the
Big-M ("taxes") conversion — construct the solver with `Aim::Maximize`,
whatever the parsed objective declared. -/
theorem claim_C9 (ct : CanonicSimplexTask ℚ) (ctT : CanonicSimplexTask (Tax ℚ)) :
    ct.intoSolver.aim = Aim.Maximize ∧ ctT.intoSolverTaxes.aim = Aim.Maximize :=
  ⟨rfl, rfl⟩

/-- Claim C8, counterexample: on a task with no restrictions `canonize`
PANICS (the `max_by_key(..).unwrap()` aborts, modelled by `none`); the
function's return type is `CanonicSimplexTask<F>`, not a `Result`, and the
error enum of errors.rs has no `EmptyProblem` variant, so no explicit error
value is ever returned to the caller. -/
theorem claim_C8_counterexample : canonize exEmptyTask = none := by decide

/-- Claim C8, amended: canonicalization ABORTS (panic via `unwrap`, not an
explicit returned error) exactly when the task has no restriction terms at
all, i.e. when no maximum variable index can be computed. -/
theorem claim_C8_amended (t : SimplexTask ℚ) :
    canonize t = none ↔ t.restrictions.flatMap (fun r => r.terms) = [] := by
  unfold canonize
  cases hmax : ((t.restrictions.flatMap (fun r => r.terms)).map (fun tm => tm.index)).max? with
  | none =>
    have : (t.restrictions.flatMap (fun r => r.terms)).map (fun tm => tm.index) = [] :=
      List.max?_eq_none_iff.mp hmax
    simp only [List.map_eq_nil_iff] at this
    simp [this]
  | some mi =>
    constructor
    · intro hcon; exact Option.noConfusion hcon
    · intro hnil
      rw [hnil] at hmax
      exact Option.noConfusion hmax

/-- Claim C2: `pivot_row(c)` considers exactly the restriction rows with
`A[r,c] ≠ 0`, keeps the strictly positive ratios `b[r]/A[r,c]`, returns a
row attaining the minimal such ratio, and fails with `NoLimit` exactly when
no row yields a strictly positive ratio. -/
theorem claim_C2 {m n : ℕ} (s : SimplexSolver m n ℚ) (c : Fin n) :
    (∀ r : Fin m, s.pivot_row c = Except.ok r →
      s.a r c ≠ 0 ∧ 0 < s.b r / s.a r c ∧
        ∀ i : Fin m, s.a i c ≠ 0 → 0 < s.b i / s.a i c →
          s.b r / s.a r c ≤ s.b i / s.a i c) ∧
    (s.pivot_row c = Except.error SimplexMethodError.NoLimit ↔
      ∀ i : Fin m, s.a i c ≠ 0 → ¬ 0 < s.b i / s.a i c) :=
  ⟨fun r h => pivot_row_ok s c r h, pivot_row_err s c⟩

/-- Claim C2, witness: in `exC10` the pivot row for column 0 is row 0 and
its ratio is strictly positive. -/
theorem claim_C2_witness :
    exC10.pivot_row 0 = Except.ok 0 ∧ (0 : ℚ) < exC10.b 0 / exC10.a 0 0 := by
  have hpr : exC10.pivot_row 0 = Except.ok 0 := by
    norm_num [SimplexSolver.pivot_row, SimplexSolver.pivotRowCands, minByKeyFirst,
      exC10, ofLists, SimplexSolver.a, SimplexSolver.b, List.finRange, List.range,
      List.range.loop, Fin.last]
  exact ⟨hpr, ((claim_C2 exC10 0).1 0 hpr).2.1⟩

/-- Claim C3: under Minimize `pivot_column()` returns a column whose
objective entry is strictly positive and largest among all columns, under
Maximize one that is strictly negative and smallest, and fails with
`NoSolutions` exactly when no candidate column exists. -/
theorem claim_C3 {m n : ℕ} (s : SimplexSolver m n ℚ) :
    (s.aim = Aim.Minimize →
      (∀ c : Fin n, s.pivot_column = Except.ok c →
        0 < s.z c.castSucc ∧ ∀ j : Fin n, s.z j.castSucc ≤ s.z c.castSucc) ∧
      (s.pivot_column = Except.error SimplexMethodError.NoSolutions ↔
        ∀ j : Fin n, ¬ 0 < s.z j.castSucc)) ∧
    (s.aim = Aim.Maximize →
      (∀ c : Fin n, s.pivot_column = Except.ok c →
        s.z c.castSucc < 0 ∧ ∀ j : Fin n, s.z c.castSucc ≤ s.z j.castSucc) ∧
      (s.pivot_column = Except.error SimplexMethodError.NoSolutions ↔
        ∀ j : Fin n, ¬ s.z j.castSucc < 0)) :=
  ⟨fun haim => ⟨fun c h => pivot_column_ok_min s haim c h, pivot_column_err_min s haim⟩,
   fun haim => ⟨fun c h => pivot_column_ok_max s haim c h, pivot_column_err_max s haim⟩⟩

/-- Claim C3, witness: the Minimize state `exC3` picks column 0, whose
objective entry 3 is strictly positive. -/
theorem claim_C3_witness :
    exC3.pivot_column = Except.ok 0 ∧ (0 : ℚ) < exC3.z (0 : Fin 2).castSucc := by
  have hpc : exC3.pivot_column = Except.ok 0 := by decide
  exact ⟨hpc, (((claim_C3 exC3).1 rfl).1 0 hpc).1⟩

/-- Claim C10: pivot selection is deterministic with fixed tie-breaks —
rows tied at the minimal ratio resolve to the smallest row index
(`min_by_key` keeps the first minimum), columns tied at the extremal
candidate entry resolve to the largest index under Minimize
(`max_by_key` keeps the last maximum) and the smallest index under
Maximize, and `solve` is a function of the initial state. -/
theorem claim_C10 {m n : ℕ} (s s2 : SimplexSolver m n ℚ) (c : Fin n) (fuel : ℕ) :
    (∀ r : Fin m, s.pivot_row c = Except.ok r →
      ∀ i : Fin m, s.a i c ≠ 0 → 0 < s.b i / s.a i c →
        s.b i / s.a i c = s.b r / s.a r c → r ≤ i) ∧
    (s.aim = Aim.Minimize → ∀ c2 : Fin n, s.pivot_column = Except.ok c2 →
      ∀ j : Fin n, 0 < s.z j.castSucc → s.z j.castSucc = s.z c2.castSucc → j ≤ c2) ∧
    (s.aim = Aim.Maximize → ∀ c2 : Fin n, s.pivot_column = Except.ok c2 →
      ∀ j : Fin n, s.z j.castSucc < 0 → s.z j.castSucc = s.z c2.castSucc → c2 ≤ j) ∧
    (s = s2 → SimplexSolver.solve fuel s = SimplexSolver.solve fuel s2) :=
  ⟨fun r h => pivot_row_tie s c r h,
   fun haim c2 h => pivot_column_tie_min s haim c2 h,
   fun haim c2 h => pivot_column_tie_max s haim c2 h,
   fun he => he ▸ rfl⟩

/-- Claim C10, witness: in `exC10` rows 0 and 1 tie at ratio 2 and the
pivot row is the smaller index 0. -/
theorem claim_C10_witness :
    exC10.pivot_row 0 = Except.ok 0 ∧
      exC10.b 1 / exC10.a 1 0 = exC10.b 0 / exC10.a 0 0 ∧ ((0 : Fin 2) ≤ (1 : Fin 2)) := by
  have hpr : exC10.pivot_row 0 = Except.ok 0 := by
    norm_num [SimplexSolver.pivot_row, SimplexSolver.pivotRowCands, minByKeyFirst,
      exC10, ofLists, SimplexSolver.a, SimplexSolver.b, List.finRange, List.range,
      List.range.loop, Fin.last]
  have htie : exC10.b 1 / exC10.a 1 0 = exC10.b 0 / exC10.a 0 0 := by
    norm_num [exC10, ofLists, SimplexSolver.a, SimplexSolver.b, Fin.last]
  refine ⟨hpr, htie, ?_⟩
  exact (claim_C10 exC10 exC10 0 0).1 0 hpr 1
    (by norm_num [exC10, ofLists, SimplexSolver.a, Fin.last])
    (by norm_num [exC10, ofLists, SimplexSolver.a, SimplexSolver.b, Fin.last]) htie

/-- Claim C6, counterexample: `from_contents` on a 2×2 tableau whose
objective row has no zero entry yields a basis of length 0, not one entry
per restriction row (m = 1). -/
theorem claim_C6_counterexample :
    (SimplexSolver.from_contents (ofLists 1 1 [[1, 1], [1, 1]]) Aim.Maximize).basis.length
      ≠ 1 := by
  decide

/-- Claim C6, amended: at construction the basis has one entry per ZERO of
the objective row (right-hand side excluded), not per restriction row;
`make_iteration` preserves the basis length; and whenever the basis
invariant (length m, basis columns forming the m×m identity) holds before a
successful `make_iteration`, it holds after. -/
theorem claim_C6_amended {m n : ℕ} (contents0 : Fin (m + 1) → Fin (n + 1) → ℚ) (aim : Aim)
    (s : SimplexSolver m n ℚ) :
    (SimplexSolver.from_contents contents0 aim).basis.length =
      ((List.finRange n).filter
        (fun j => decide (contents0 (Fin.last m) j.castSucc = 0))).length ∧
    ExceptAll (fun s1 => s1.basis.length = s.basis.length) s.make_iteration ∧
    (basisIdentity s → ExceptAll basisIdentity s.make_iteration) := by
  refine ⟨?_, ?_, ?_⟩
  · unfold SimplexSolver.from_contents
    exact List.length_map _ _
  · cases hmk : s.make_iteration with
    | error e => trivial
    | ok s1 =>
      obtain ⟨r, c2, _, _, _, hbasis, _⟩ := make_iteration_ok s s1 hmk
      show s1.basis.length = s.basis.length
      rw [hbasis, List.length_set]
  · intro hid
    cases hmk : s.make_iteration with
    | error e => trivial
    | ok s1 => exact basisIdentity_preserved s s1 hid hmk

/-- Claim C6, witness: the invariant holds of `exC6w` and still holds after
its (successful) iteration. -/
theorem claim_C6_amended_witness :
    basisIdentity exC6w ∧ ExceptAll basisIdentity exC6w.make_iteration := by
  have hid : basisIdentity exC6w := by decide
  exact ⟨hid, (claim_C6_amended exC6w.contents Aim.Maximize exC6w).2.2 hid⟩

/-- Claim C4: when `canonize` succeeds, every resulting restriction has
relation `=` and rhs ≥ 0; a `<=` restriction gains a fresh slack term with
coefficient +1 at the incremented running index, a `>=` restriction a
surplus term with coefficient -1, an `=` restriction gains nothing; and a
restriction whose rhs was negative has every coefficient and the rhs
negated.  The final `max_index` is the original maximum plus one per
non-equality restriction. -/
theorem claim_C4 (t : SimplexTask ℚ) (ct : CanonicSimplexTask ℚ)
    (h : canonize t = some ct) :
    ∃ m0,
      ((t.restrictions.flatMap (fun r => r.terms)).map (fun tm => tm.index)).max? = some m0 ∧
      ct.max_index = m0 + slackCount t.restrictions ∧
      ct.task.restrictions.length = t.restrictions.length ∧
      ∀ (i : ℕ) (rIn rOut : SimplexRestriction ℚ),
        t.restrictions[i]? = some rIn → ct.task.restrictions[i]? = some rOut →
        rOut.relation = SimplexRelation.Eq ∧ 0 ≤ rOut.free ∧
        rOut.free = (if rIn.free < 0 then -rIn.free else rIn.free) ∧
        rOut.terms = (if rIn.free < 0 then List.map termNot else id)
          (rIn.terms ++
            (match rIn.relation with
             | SimplexRelation.Less =>
               [⟨1, m0 + slackCount (t.restrictions.take i) + 1⟩]
             | SimplexRelation.Eq => []
             | SimplexRelation.Greater =>
               [⟨-1, m0 + slackCount (t.restrictions.take i) + 1⟩])) := by
  unfold canonize at h
  cases hmax :
      ((t.restrictions.flatMap (fun r => r.terms)).map (fun tm => tm.index)).max? with
  | none => rw [hmax] at h; exact Option.noConfusion h
  | some m0 =>
    rw [hmax] at h
    injection h with h
    subst h
    refine ⟨m0, rfl, canonizeRestrictions_snd m0 t.restrictions,
      canonizeRestrictions_len m0 t.restrictions, ?_⟩
    intro i rIn rOut hIn hOut
    have hOut2 : (canonizeRestrictions m0 t.restrictions).1[i]? = some rOut := hOut
    obtain ⟨hi, hInv⟩ := List.getElem?_eq_some.mp hIn
    obtain ⟨hi2, hOutv⟩ := List.getElem?_eq_some.mp hOut2
    have hget := canonizeRestrictions_get m0 t.restrictions i hi hi2
    rw [List.get_eq_getElem, List.get_eq_getElem] at hget
    have hOutEq : rOut =
        (canonizeOne (m0 + slackCount (t.restrictions.take i)) t.restrictions[i]).1 := by
      rw [← hget]; exact hOutv.symm
    have hInEq : rIn = t.restrictions[i] := hInv.symm
    subst hOutEq
    subst hInEq
    generalize t.restrictions[i] = rr
    generalize m0 + slackCount (t.restrictions.take i) = k
    obtain ⟨ts, rel, f⟩ := rr
    unfold canonizeOne
    cases rel with
    | Less =>
      by_cases hf : f < 0
      · simp only [if_pos hf]
        refine ⟨trivial, ?_, ?_, rfl⟩
        · have hr : f * (0 - 1) = -f := by ring
          rw [hr]; linarith
        · ring
      · simp only [if_neg hf]
        exact ⟨trivial, not_lt.mp hf, trivial, rfl⟩
    | Eq =>
      by_cases hf : f < 0
      · simp only [if_pos hf]
        refine ⟨trivial, ?_, ?_, ?_⟩
        · have hr : f * (0 - 1) = -f := by ring
          rw [hr]; linarith
        · ring
        · rw [List.append_nil]
          rfl
      · simp only [if_neg hf]
        refine ⟨trivial, not_lt.mp hf, trivial, ?_⟩
        rw [List.append_nil]
        rfl
    | Greater =>
      have h1 : termNot ⟨1, k + 1⟩ = (⟨-1, k + 1⟩ : SimplexTerm ℚ) := by
        unfold termNot; norm_num
      by_cases hf : f < 0
      · simp only [if_pos hf]
        refine ⟨trivial, ?_, ?_, ?_⟩
        · have hr : f * (0 - 1) = -f := by ring
          rw [hr]; linarith
        · ring
        · rw [← h1]
          rfl
      · simp only [if_neg hf]
        refine ⟨trivial, not_lt.mp hf, trivial, ?_⟩
        rw [← h1]
        rfl

/-- Claim C4, witness: canonizing the task `x1 <= 4` appends the slack term
`+1·x2` and keeps relation `=` with rhs 4 ≥ 0. -/
theorem claim_C4_witness :
    canonize exT4 = some exCT4 ∧
      ∀ rOut : SimplexRestriction ℚ, exCT4.task.restrictions[0]? = some rOut →
        rOut.relation = SimplexRelation.Eq := by
  obtain ⟨m0, hmax, hmi, hlen, helem⟩ := claim_C4 exT4 exCT4 (by decide)
  refine ⟨by decide, ?_⟩
  intro rOut hOut
  exact (helem 0 ⟨[⟨1, 1⟩], SimplexRelation.Less, 4⟩ rOut (by decide) hOut).1
